import Mathlib

/-!
Verification development for the playlist-transfer service (playthelist).

The definitions below are shallow embeddings of the Python source:

* `RateLimiter` (src/rate_limiter.py): `redisCheck` embeds
  `_check_redis_rate_limit`, `fallbackCore` the Redis-storage branch of
  `_check_fallback_rate_limit`, `checkFallbackRateLimit` and
  `checkRateLimit` the dispatch logic around them.  Timestamps are
  integers (seconds); the external Redis calls are modelled by explicit
  `Except`-valued inputs (`.error` = the call raised an exception).
* `clean_title`, `detect_platform`, `validate_playlist_url`,
  `search_spotify`, `search_ytmusic`, `transfer_playlist`'s two target
  branches (src/playlist_agent.py, src/app.py), with network calls and
  the AI oracle passed in as explicit environments and the issued calls
  recorded as an event trace.

Settled claims C1-C10 follow the definitions.
-/

namespace PlayTheList

/-! ## Rate limiter (src/rate_limiter.py) -/

/-- Embeds `pipe.zremrangebyscore(key, 0, window_start)`: scores in the
closed interval `[0, ws]` are removed, everything else is kept. -/
def pruneKeep (ws : ℤ) (l : List ℤ) : List ℤ :=
  l.filter fun t => decide (t < 0) || decide (ws < t)

/-- Embeds `pipe.zadd(key, {str(now): now})`: the sorted set is keyed by
the member string `str(now)`, so adding an already present timestamp
leaves the set unchanged. -/
def insertTs (l : List ℤ) (t : ℤ) : List ℤ :=
  if t ∈ l then l else l ++ [t]

/-- Denial message `f"Rate limit exceeded. Max {max_requests} requests per {window_minutes} minutes."`. -/
def denyMsg (maxReq winMin : ℤ) : String :=
  "Rate limit exceeded. Max " ++ toString maxReq ++ " requests per "
    ++ toString winMin ++ " minutes."

/-- Embeds `RateLimiter._check_redis_rate_limit` on state `l` (the sorted
set for the user's key): prune scores in `[0, now - 60*window]`, count,
add `now` (unconditionally: the pipeline always runs `zadd`), then compare
the pre-add count against `max_requests`.  Returns
(is_allowed, message, new stored state). -/
def redisCheck (l : List ℤ) (now maxReq winMin : ℤ) : Bool × String × List ℤ :=
  let ws := now - winMin * 60
  let pruned := pruneKeep ws l
  let recorded := insertTs pruned now
  if maxReq ≤ (pruned.length : ℤ) then (false, denyMsg maxReq winMin, recorded)
  else (true, "OK", recorded)

/-- Embeds the Redis-storage branch of `_check_fallback_rate_limit`
(lines 103-125): read the stored JSON list, keep entries strictly newer
than `now - 60*window`, deny (leaving the stored value untouched — no
`setex` happens) when the count reaches `max_requests`, otherwise store
the pruned list with `now` appended and allow. -/
def fallbackCore (stored : List ℤ) (now maxReq winMin : ℤ) : Bool × String × List ℤ :=
  let ws := now - winMin * 60
  let reqs := stored.filter fun t => decide (ws < t)
  if maxReq ≤ (reqs.length : ℤ) then (false, denyMsg maxReq winMin, stored)
  else (true, "OK", reqs ++ [now])

/-- Embeds `_check_fallback_rate_limit`: when the client object exists the
Redis-storage branch runs (`store` is the `get` result, `.error` = that
block raised); when the client is gone, or the storage block raised, the
ultimate fallback allows with the distinguishable message. -/
def checkFallbackRateLimit (clientUp : Bool) (store : Except Unit (List ℤ))
    (now maxReq winMin : ℤ) : Bool × String :=
  if clientUp then
    match store with
    | .ok stored =>
      let r := fallbackCore stored now maxReq winMin
      (r.1, r.2.1)
    | .error _ => (true, "OK (fallback mode)")
  else (true, "OK (fallback mode)")

/-- Embeds `check_rate_limit`: use the Redis path when the client exists
(`primary` is the pipeline's view of the stored sorted set, `.error` =
the Redis block raised), otherwise — or on a Redis exception — the
fallback path. -/
def checkRateLimit (clientUp : Bool) (primary fbStore : Except Unit (List ℤ))
    (now maxReq winMin : ℤ) : Bool × String :=
  if clientUp then
    match primary with
    | .ok l =>
      let r := redisCheck l now maxReq winMin
      (r.1, r.2.1)
    | .error _ => checkFallbackRateLimit clientUp fbStore now maxReq winMin
  else checkFallbackRateLimit clientUp fbStore now maxReq winMin

/-- Decisions of a sequence of Redis-path checks for one user, starting
from stored state `l`. -/
def redisRun (maxReq winMin : ℤ) (l : List ℤ) : List ℤ → List Bool
  | [] => []
  | t :: ts =>
    let r := redisCheck l t maxReq winMin
    r.1 :: redisRun maxReq winMin r.2.2 ts

/-- Decisions of a sequence of fallback-path checks (the Redis-storage
branch) for one user, starting from stored state `l`. -/
def fallbackRun (maxReq winMin : ℤ) (l : List ℤ) : List ℤ → List Bool
  | [] => []
  | t :: ts =>
    let r := fallbackCore l t maxReq winMin
    r.1 :: fallbackRun maxReq winMin r.2.2 ts

end PlayTheList

namespace PlayTheList

/-! ## Claims about the rate limiter -/

/-- C1 (corrected).  Admission checks behave as the claim states on the
fallback path: a denial leaves the stored timestamp list untouched, an
allow stores the pruned list with exactly `now` appended.  On the Redis
path the decision is still taken by comparing the pruned count with
`max_requests`, but the pipeline records `now` unconditionally, so a
denied request also adds the current timestamp. -/
theorem rate_check_recording (l stored : List ℤ) (now maxReq winMin : ℤ) :
    ((redisCheck l now maxReq winMin).2.2
        = insertTs (pruneKeep (now - winMin * 60) l) now
      ∧ (redisCheck l now maxReq winMin).1
        = decide ((pruneKeep (now - winMin * 60) l).length < maxReq))
    ∧ ((fallbackCore stored now maxReq winMin).1 = false
        → (fallbackCore stored now maxReq winMin).2.2 = stored)
    ∧ ((fallbackCore stored now maxReq winMin).1 = true
        → (fallbackCore stored now maxReq winMin).2.2
          = (stored.filter fun t => decide (now - winMin * 60 < t)) ++ [now]) := by
  refine ⟨⟨?_, ?_⟩, ?_, ?_⟩ <;>
    simp only [redisCheck, fallbackCore] <;>
    split <;>
    simp_all

/-- Closed witness for `rate_check_recording`. -/
theorem rate_check_recording_witness :
    (fallbackCore [100] 150 1 1).2.2 = [100]
      ∧ (fallbackCore [40] 150 1 1).2.2 = [150] := by
  refine ⟨(rate_check_recording [] [100] 150 1 1).2.1 (by decide), ?_⟩
  have h := (rate_check_recording [] [40] 150 1 1).2.2 (by decide)
  simpa using h

/-- C1 counterexample: on the Redis path a denied request does not leave
the stored timestamp set unchanged.  With one stored timestamp `100`,
`max_requests = 1` and a 1-minute window, the check at `now = 150` is
denied and yet the stored set becomes `[100, 150]`. -/
theorem redis_deny_records_counterexample :
    redisCheck [100] 150 1 1 = (false, denyMsg 1 1, [100, 150])
      ∧ [100, 150] ≠ [100] := by
  constructor
  · rfl
  · decide

/-- C9 (confirmed).  When the durable store's path raised and the
degraded storage path also fails (or the client is gone entirely), the
governor admits the request with reason `"OK (fallback mode)"`, and that
reason differs from the `"OK"` returned by every normal allow of either
path. -/
theorem fail_open_distinguishable (now maxReq winMin : ℤ) :
    checkRateLimit true (.error ()) (.error ()) now maxReq winMin
        = (true, "OK (fallback mode)")
    ∧ (∀ l : List ℤ, (redisCheck l now maxReq winMin).1 = true
        → (redisCheck l now maxReq winMin).2.1 = "OK")
    ∧ (∀ l : List ℤ, (fallbackCore l now maxReq winMin).1 = true
        → (fallbackCore l now maxReq winMin).2.1 = "OK")
    ∧ "OK (fallback mode)" ≠ "OK" := by
  refine ⟨rfl, ?_, ?_, by decide⟩
  · intro l h
    simp only [redisCheck] at h ⊢
    by_cases hc : maxReq ≤ ((pruneKeep (now - winMin * 60) l).length : ℤ)
    · rw [if_pos hc] at h; exact absurd h (by simp)
    · rw [if_neg hc]
  · intro l h
    simp only [fallbackCore] at h ⊢
    by_cases hc : maxReq ≤ (((l.filter fun t => decide (now - winMin * 60 < t)).length : ℕ) : ℤ)
    · rw [if_pos hc] at h; exact absurd h (by simp)
    · rw [if_neg hc]

/-- Closed witness for `fail_open_distinguishable`. -/
theorem fail_open_distinguishable_witness :
    (redisCheck [] 10 1 1).2.1 = "OK" :=
  (fail_open_distinguishable 10 1 1).2.1 [] (by decide)

/-! ### Sliding-window analysis of the Redis path (claim C8)

The Redis path records every check time — denied ones included — so its
stored set after a run of checks is exactly the set of past check times
still inside the latest window.  `decSpec` is that characterisation of
the produced decisions, proved equal to `redisRun` below. -/

/-- Expected decisions of the Redis path given the full list of past
check times: a check at `t` is allowed iff fewer than `maxReq` past
checks lie inside `(t - 60*winMin, t]`-ish window `(t - W, ∞)`. -/
def decSpec (maxReq W : ℤ) : List ℤ → List ℤ → List Bool
  | _, [] => []
  | past, t :: ts =>
    decide (((past.filter fun p => decide (t - W < p)).length : ℤ) < maxReq)
      :: decSpec maxReq W (past ++ [t]) ts

/-- Number of check times of `past` inside the window `(T - W, T]`. -/
def winCount (T W : ℤ) (l : List ℤ) : ℕ :=
  (l.filter fun p => decide (T - W < p) && decide (p ≤ T)).length

/-- Number of allowed decisions whose check time lies in `(T - W, T]`. -/
def countTrueWin (T W : ℤ) : List ℤ → List Bool → ℕ
  | t :: ts, d :: ds =>
    (if d = true ∧ T - W < t ∧ t ≤ T then 1 else 0) + countTrueWin T W ts ds
  | _, _ => 0

theorem pruneKeep_filter (W ws : ℤ) (past : List ℤ) (hpos : ∀ p ∈ past, 0 < p)
    (hle : ws ≤ W) :
    pruneKeep W (past.filter fun p => decide (ws < p))
      = past.filter fun p => decide (W < p) := by
  unfold pruneKeep
  rw [List.filter_filter]
  apply List.filter_congr
  intro p hp
  have := hpos p hp
  by_cases h : W < p <;> simp [h] <;> omega

theorem redisRun_eq_decSpec (maxReq winMin : ℤ) (hW : 0 < winMin)
    (ts : List ℤ) : ∀ (past : List ℤ) (prev : ℤ),
    (∀ p ∈ past, 0 < p) → (∀ p ∈ past, p ≤ prev) → (0 ≤ prev) →
    List.Chain' (· < ·) (prev :: ts) →
    redisRun maxReq winMin (past.filter fun p => decide (prev - winMin * 60 < p)) ts
      = decSpec maxReq (winMin * 60) past ts := by
  induction ts with
  | nil => intro past prev _ _ _ _; rfl
  | cons t ts ih =>
    intro past prev hpos hle hprev hchain
    have hpt : prev < t := (List.chain'_cons.mp hchain).1
    have hchain' : List.Chain' (· < ·) (t :: ts) := (List.chain'_cons.mp hchain).2
    have hprune := pruneKeep_filter (t - winMin * 60) (prev - winMin * 60) past hpos
      (by omega)
    have hnotmem : t ∉ past.filter fun p => decide (t - winMin * 60 < p) := by
      intro hmem
      have := hle t (List.mem_of_mem_filter hmem)
      omega
    have hfilt : (past.filter fun p => decide (t - winMin * 60 < p)) ++ [t]
        = (past ++ [t]).filter fun p => decide (t - winMin * 60 < p) := by
      have ht : decide (t - winMin * 60 < t) = true := decide_eq_true (by omega)
      simp [List.filter_append, List.filter_cons, ht, hW]
    have hstep := ih (past ++ [t]) t
      (by intro p hp; rcases List.mem_append.mp hp with h | h
          · exact hpos p h
          · simp only [List.mem_singleton] at h; omega)
      (by intro p hp; rcases List.mem_append.mp hp with h | h
          · exact le_of_lt (lt_of_le_of_lt (hle p h) hpt)
          · simp only [List.mem_singleton] at h; omega)
      (by omega) hchain'
    simp only [redisRun, redisCheck, decSpec]
    rw [hprune]
    simp only [insertTs, if_neg hnotmem]
    rw [hfilt]
    by_cases hc : maxReq ≤ (((past.filter fun p => decide (t - winMin * 60 < p)).length : ℕ) : ℤ)
    · rw [if_pos hc]
      dsimp only
      rw [hstep, decide_eq_false (by omega :
        ¬(((past.filter fun p => decide (t - winMin * 60 < p)).length : ℤ) < maxReq))]
    · rw [if_neg hc]
      dsimp only
      rw [hstep, decide_eq_true (by omega :
        ((past.filter fun p => decide (t - winMin * 60 < p)).length : ℤ) < maxReq)]

theorem winCount_le_filter (T W t : ℤ) (past : List ℤ) (hT : t ≤ T) :
    winCount T W past ≤ (past.filter fun p => decide (t - W < p)).length := by
  apply List.Sublist.length_le
  apply List.monotone_filter_right
  intro p hp
  simp only [Bool.and_eq_true, decide_eq_true_eq] at hp ⊢
  omega

theorem decSpec_window_bound (maxReq W T : ℤ) (ts : List ℤ) :
    ∀ past : List ℤ,
    (countTrueWin T W ts (decSpec maxReq W past ts) : ℤ)
      ≤ max (maxReq - winCount T W past) 0 := by
  induction ts with
  | nil => intro past; simp [countTrueWin, decSpec]
  | cons t ts ih =>
    intro past
    have hwc : winCount T W (past ++ [t])
        = winCount T W past + (if T - W < t ∧ t ≤ T then 1 else 0) := by
      simp only [winCount, List.filter_append, List.length_append]
      congr 1
      by_cases h : T - W < t ∧ t ≤ T
      · simp [List.filter_cons, h.1, h.2]
      · rcases not_and_or.mp h with h' | h' <;> simp [List.filter_cons, h, h']
    have ih' := ih (past ++ [t])
    simp only [decSpec, countTrueWin]
    by_cases hwin : T - W < t ∧ t ≤ T
    · by_cases hd : ((past.filter fun p => decide (t - W < p)).length : ℤ) < maxReq
      · have hle := winCount_le_filter T W t past hwin.2
        simp only [hwc, if_pos hwin] at ih'
        simp only [decide_eq_true_eq]
        rw [if_pos ⟨by simpa using hd, hwin.1, hwin.2⟩]
        push_cast at ih' ⊢
        omega
      · rw [if_neg (by simp only [decide_eq_true_eq]; tauto)]
        simp only [hwc, if_pos hwin] at ih'
        push_cast at ih' ⊢
        omega
    · rw [if_neg (by tauto)]
      simp only [hwc, if_neg hwin, add_zero] at ih'
      push_cast at ih' ⊢
      omega

/-- C8 (corrected).  (1) The sliding-window bound holds on the Redis
path: over any run of checks at positive, strictly increasing times, at
most `max_requests` checks are allowed inside any window
`(T - 60*window_minutes, T]`.  (2) On the Redis path a previously denied
user is admitted again only once every recorded timestamp — including
those recorded by denied checks — has aged past the window.  (3) On the
fallback path the claim's readmission holds as stated: denials record
nothing, the stored list never exceeds `max_requests` entries (last
conjunct), so as soon as any stored timestamp (in particular the oldest)
ages past the window the next check is allowed. -/
theorem sliding_window_admissions :
    (∀ (maxReq winMin T : ℤ) (times : List ℤ), 0 < winMin → 0 ≤ maxReq →
      (∀ t ∈ times, 0 < t) → List.Chain' (· < ·) times →
      (countTrueWin T (winMin * 60) times (redisRun maxReq winMin [] times) : ℤ) ≤ maxReq)
    ∧ (∀ (l : List ℤ) (now maxReq winMin : ℤ), 0 < maxReq →
      (∀ t ∈ l, 0 ≤ t ∧ t ≤ now - winMin * 60) →
      (redisCheck l now maxReq winMin).1 = true)
    ∧ (∀ (stored : List ℤ) (now maxReq winMin : ℤ),
      (stored.length : ℤ) ≤ maxReq → (∃ s ∈ stored, s ≤ now - winMin * 60) →
      (fallbackCore stored now maxReq winMin).1 = true)
    ∧ (∀ (stored : List ℤ) (now maxReq winMin : ℤ),
      (stored.length : ℤ) ≤ maxReq →
      ((fallbackCore stored now maxReq winMin).2.2.length : ℤ) ≤ maxReq) := by
  refine ⟨?_, ?_, ?_, ?_⟩
  · intro maxReq winMin T times hW hmax hpos hchain
    have hchain0 : List.Chain' (· < ·) ((0 : ℤ) :: times) := by
      cases times with
      | nil => simp
      | cons t ts => exact List.chain'_cons.mpr ⟨hpos t (by simp), hchain⟩
    have hrun := redisRun_eq_decSpec maxReq winMin hW times [] 0
      (by simp) (by simp) le_rfl hchain0
    simp only [List.filter_nil] at hrun
    rw [hrun]
    have hbound := decSpec_window_bound maxReq (winMin * 60) T times []
    have hzero : winCount T (winMin * 60) ([] : List ℤ) = 0 := rfl
    rw [hzero] at hbound
    omega
  · intro l now maxReq winMin hmax hall
    have hnil : pruneKeep (now - winMin * 60) l = [] := by
      rw [pruneKeep, List.filter_eq_nil_iff]
      intro t ht
      have := hall t ht
      simp only [Bool.or_eq_true, decide_eq_true_eq, not_or]
      omega
    simp only [redisCheck, hnil, List.length_nil, Nat.cast_zero]
    rw [if_neg (by omega : ¬ maxReq ≤ (0 : ℤ))]
  · intro stored now maxReq winMin hlen hex
    obtain ⟨s, hs, hold⟩ := hex
    have hlt : ((stored.filter fun t => decide (now - winMin * 60 < t)).length) < stored.length := by
      rw [List.length_filter_lt_length_iff_exists]
      exact ⟨s, hs, by simpa using by omega⟩
    simp only [fallbackCore]
    rw [if_neg (by omega)]
  · intro stored now maxReq winMin hlen
    simp only [fallbackCore]
    by_cases hc : maxReq ≤ ((stored.filter fun t => decide (now - winMin * 60 < t)).length : ℤ)
    · rw [if_pos hc]; exact hlen
    · rw [if_neg hc]
      simp only [List.length_append, List.length_singleton]
      push_cast at hc ⊢
      omega

/-- Closed witness for `sliding_window_admissions`. -/
theorem sliding_window_admissions_witness :
    (countTrueWin 80 (1 * 60) [10, 30] (redisRun 1 1 [] [10, 30]) : ℤ) ≤ 1
      ∧ (redisCheck [10] 80 1 1).1 = true
      ∧ (fallbackCore [10] 80 1 1).1 = true
      ∧ ((fallbackCore [10] 80 1 1).2.2.length : ℤ) ≤ 1 :=
  ⟨sliding_window_admissions.1 1 1 80 [10, 30] (by decide) (by decide)
      (by decide) (by rw [List.chain'_pair]; decide),
    sliding_window_admissions.2.1 [10] 80 1 1 (by decide) (by decide),
    sliding_window_admissions.2.2.1 [10] 80 1 1 (by decide) ⟨10, by decide, by decide⟩,
    sliding_window_admissions.2.2.2 [10] 80 1 1 (by decide)⟩

/-- C8 counterexample: with `max_requests = 1` and a 1-minute window, a
user is allowed at `t = 10`, denied at `t = 30`, and at `t = 80` — after
the 60-second window has elapsed past the oldest recorded timestamp 10 —
the next request is still denied on the Redis path, because the denied
check at 30 also recorded a timestamp. -/
theorem sliding_window_counterexample :
    redisRun 1 1 [] [10, 30, 80] = [true, false, false]
      ∧ (10 : ℤ) ≤ 80 - 1 * 60 := by
  constructor
  · decide
  · decide

/-! ## URL platform detection (src/playlist_agent.py `detect_platform`,
src/app.py `validate_playlist_url`) -/

/-- Python's `needle in haystack` substring test on character lists. -/
def containsSub (needle : List Char) : List Char → Bool
  | [] => decide (needle = [])
  | c :: rest => needle.isPrefixOf (c :: rest) || containsSub needle rest

/-- Embeds `detect_platform`: substring inspection of the WHOLE url
string, exactly as the source's `in` tests. -/
def detect_platform (url : String) : Option String :=
  if containsSub "music.youtube.com".data url.data
      || containsSub "youtu.be".data url.data
      || containsSub "youtube.com".data url.data then some "youtube"
  else if containsSub "spotify.com".data url.data then some "spotify"
  else none

/-- Character class of `urlparse` scheme bodies: letters, digits, `+`,
`-`, `.`. -/
def schemeChar (c : Char) : Bool :=
  c.isAlpha || c.isDigit || decide (c = '+') || decide (c = '-') || decide (c = '.')

/-- Models the `scheme` component of `urllib.parse.urlparse`: the text
before the first colon, lowercased, when it is a well-formed scheme token
(leading letter, then letters/digits/`+`/`-`/`.`); otherwise empty. -/
def schemeOf (url : String) : String :=
  let pre := url.data.takeWhile fun c => decide (c ≠ ':')
  if pre.length < url.data.length ∧ pre ≠ []
      ∧ (pre.headD 'a').isAlpha ∧ pre.all schemeChar then
    String.mk (pre.map Char.toLower)
  else ""

/-- Embeds `validate_playlist_url` from src/app.py (the `isinstance`
check cannot fail for a `String`, and `urlparse` does not raise on the
inputs modelled here): empty-url check, length cap, scheme whitelist,
then `detect_platform`. -/
def validate_playlist_url (url : String) : Bool × String :=
  if url.data = [] then (false, "Invalid URL")
  else if 500 < url.data.length then (false, "URL too long")
  else if ¬(schemeOf url = "http" ∨ schemeOf url = "https") then
    (false, "Invalid URL scheme")
  else
    match detect_platform url with
    | none => (false, "Unsupported platform")
    | some _ => (true, "Valid")

theorem containsSub_iff (needle hay : List Char) :
    containsSub needle hay = true ↔ ∃ pre post, hay = pre ++ needle ++ post := by
  induction hay with
  | nil =>
    simp only [containsSub, decide_eq_true_eq]
    constructor
    · rintro rfl; exact ⟨[], [], rfl⟩
    · rintro ⟨pre, post, h⟩
      rcases List.append_eq_nil.mp (List.append_eq_nil.mp h.symm).1 with ⟨-, h2⟩
      exact h2
  | cons c rest ih =>
    simp only [containsSub, Bool.or_eq_true, ih]
    constructor
    · rintro (hpre | ⟨pre, post, rfl⟩)
      · obtain ⟨post, hpost⟩ := List.isPrefixOf_iff_prefix.mp hpre
        exact ⟨[], post, by simp [hpost]⟩
      · exact ⟨c :: pre, post, by simp⟩
    · rintro ⟨pre, post, hsplit⟩
      cases pre with
      | nil =>
        left
        rw [List.isPrefixOf_iff_prefix]
        exact ⟨post, by simpa using hsplit.symm⟩
      | cons p ps =>
        right
        refine ⟨ps, post, ?_⟩
        simpa using (List.cons.injEq .. ▸ hsplit :
          c = p ∧ rest = ps ++ needle ++ post).2

theorem containsSub_trans (a b c : List Char) (hab : containsSub a b = true)
    (hbc : containsSub b c = true) : containsSub a c = true := by
  rw [containsSub_iff] at *
  obtain ⟨p1, q1, rfl⟩ := hab
  obtain ⟨p2, q2, rfl⟩ := hbc
  exact ⟨p2 ++ p1, q1 ++ q2, by simp⟩

/-- C4 (corrected).  Platform detection substring-matches the entire URL
string, not its host component (see the counterexample); what does hold
is that a URL containing none of the platform signatures anywhere is
rejected by `validate_playlist_url` with no network call involved:
both functions are pure. -/
theorem unsupported_url_rejected (url : String)
    (h1 : containsSub "youtu.be".data url.data = false)
    (h2 : containsSub "youtube.com".data url.data = false)
    (h3 : containsSub "spotify.com".data url.data = false) :
    detect_platform url = none ∧ (validate_playlist_url url).1 = false := by
  have hm : containsSub "music.youtube.com".data url.data = false := by
    by_contra hmm
    rw [containsSub_trans "youtube.com".data "music.youtube.com".data url.data
      (by decide) (Bool.not_eq_false _ ▸ hmm)] at h2
    exact absurd h2 (by simp)
  have hdet : detect_platform url = none := by
    simp [detect_platform, hm, h1, h2, h3]
  refine ⟨hdet, ?_⟩
  unfold validate_playlist_url
  split
  · rfl
  · split
    · rfl
    · split
      · rfl
      · rw [hdet]

/-- Closed witness for `unsupported_url_rejected`. -/
theorem unsupported_url_rejected_witness :
    detect_platform "https://example.com/list?id=1" = none
      ∧ (validate_playlist_url "https://example.com/list?id=1").1 = false :=
  unsupported_url_rejected "https://example.com/list?id=1"
    (by decide) (by decide) (by decide)

/-- C4 counterexample: the URL `https://evil.com/?u=spotify.com` has host
`evil.com` — not a recognized platform hostname — yet, because the
signature `spotify.com` appears in its query string, `detect_platform`
reports Spotify and `validate_playlist_url` accepts it instead of
rejecting it. -/
theorem substring_detection_counterexample :
    detect_platform "https://evil.com/?u=spotify.com" = some "spotify"
      ∧ validate_playlist_url "https://evil.com/?u=spotify.com" = (true, "Valid") := by
  constructor
  · decide
  · decide

/-! ## Track search and transfer (src/playlist_agent.py)

Every network call and the AI oracle are passed in as explicit
environments: an `Except Unit _` input stands for the corresponding
call's outcome (`.error` = the call raised an exception), and the
`ai`/`sim` fields are the text-completion oracle (total, because
`ai_best_match` catches its own exceptions and returns `"NONE"`) and the
`difflib.SequenceMatcher` similarity used by `get_close_matches`. -/

/-- One Spotify search result, with the fields the code reads. -/
structure SpCand where
  name : String
  artistName : String
  uri : String
deriving DecidableEq

/-- One YT Music search result, with the fields the code reads. -/
structure YtCand where
  title : String
  artistName : String
  videoId : String
deriving DecidableEq

/-- Candidate display string `f"{r['name']} {r['artists'][0]['name']}"`. -/
def spCandStr (r : SpCand) : String := r.name ++ " " ++ r.artistName

/-- Candidate display string `f"{r['title']} {r['artists'][0]['name']}"`. -/
def ytCandStr (r : YtCand) : String := r.title ++ " " ++ r.artistName

/-- Embeds `difflib.get_close_matches(query, cands, n=1, cutoff=0.7)`
with the sequence-matcher ratio supplied as `sim`: keep the candidates
scoring at least 0.7, return the lexicographically largest
(score, string) pair's string — `heapq.nlargest` on (ratio, string)
tuples — or nothing. -/
def getCloseMatches1 (sim : String → String → ℚ) (query : String)
    (cands : List String) : Option String :=
  let scored := cands.filterMap fun c =>
    if (7 : ℚ)/10 ≤ sim query c then some (sim query c, c) else none
  match scored with
  | [] => none
  | x :: xs =>
    some (xs.foldl (fun best p =>
      if best.1 < p.1 ∨ (best.1 = p.1 ∧ best.2 < p.2) then p else best) x).2

/-- Environment of one `search_spotify` call: the two catalog queries'
outcomes and the two oracles. -/
structure SpSearchEnv where
  q1 : Except Unit (List SpCand)
  q2 : Except Unit (List SpCand)
  ai : String → List String → String
  sim : String → String → ℚ

/-- Embeds `search_spotify`.  Returns (result uri, AI tier invoked,
fuzzy tier invoked).  The whole body is inside `try/except`, so a raised
catalog query yields `none`; the candidate list of the AI/fuzzy tiers is
built from `results['tracks']['items']` — the (empty, already consumed)
second query's items, as in the source. -/
def search_spotify (env : SpSearchEnv) (title artist : String) :
    Option String × Bool × Bool :=
  match env.q1 with
  | .error _ => (none, false, false)
  | .ok items1 =>
    match items1.head? with
    | some r => (some r.uri, false, false)
    | none =>
      match env.q2 with
      | .error _ => (none, false, false)
      | .ok items2 =>
        match items2.head? with
        | some r => (some r.uri, false, false)
        | none =>
          let cands := items2.map spCandStr
          let query := title ++ " " ++ artist
          let ans := env.ai query cands
          let best : Option String :=
            if ans = "NONE" then getCloseMatches1 env.sim query cands
            else some ans
          match best with
          | none => (none, true, ans = "NONE")
          | some b =>
            ((items2.find? fun r => decide (spCandStr r = b)).map SpCand.uri,
              true, ans = "NONE")

/-- Environment of one `search_ytmusic` call. -/
structure YtSearchEnv where
  res : Except Unit (List YtCand)
  ai : String → List String → String
  sim : String → String → ℚ

/-- Embeds `search_ytmusic`.  The `ytmusic.search` call is NOT wrapped in
`try/except`, so its exception propagates (`.error`); candidates are the
first five results, the final scan runs over all results. -/
def search_ytmusic (env : YtSearchEnv) (title artist : String) :
    Except Unit (Option String) :=
  match env.res with
  | .error e => .error e
  | .ok results =>
    let query := title ++ " " ++ artist
    let cands := (results.take 5).map ytCandStr
    let ans := env.ai query cands
    let best : Option String :=
      if ans = "NONE" then getCloseMatches1 env.sim query cands
      else some ans
    .ok (match best with
      | none => none
      | some b => (results.find? fun r => decide (ytCandStr r = b)).map YtCand.videoId)

/-- External calls issued by a transfer, in order. -/
inductive Ev where
  | search (title artist : String)
  | createPl (name : String)
  | appendTr (ids : List String)
deriving DecidableEq

/-- The per-track loop of `transfer_playlist`'s `target == "spotify"`
branch: returns (uris, missing, issued search calls). -/
def spotifyLoop (se : String → String → SpSearchEnv) :
    List (String × String) → List String × List String × List Ev
  | [] => ([], [], [])
  | (t, a) :: rest =>
    let uri := (search_spotify (se t a) t a).1
    let r := spotifyLoop se rest
    match uri with
    | some u => (u :: r.1, r.2.1, Ev.search t a :: r.2.2)
    | none => (r.1, (t ++ " - " ++ a) :: r.2.1, Ev.search t a :: r.2.2)

/-- Embeds `transfer_playlist`'s `target == "spotify"` branch, from the
point where the source tracks and playlist title are known.  `createRes`
is the outcome of `create_spotify_playlist` (which re-raises its
failures); on success it carries (playlist id, external url).  The result
pairs the playlist url with the missing list; the trace records the
created playlist, the per-track searches and the single batched append,
which is skipped when no uri was resolved. -/
def transfer_spotify (createRes : Except Unit (String × String))
    (se : String → String → SpSearchEnv) (tracks : List (String × String))
    (playlistTitle : String) : Except Unit (String × List String) × List Ev :=
  match createRes with
  | .error e => (.error e, [Ev.createPl playlistTitle])
  | .ok pl =>
    let r := spotifyLoop se tracks
    (.ok (pl.2, r.2.1),
      Ev.createPl playlistTitle :: r.2.2
        ++ if r.1.isEmpty then [] else [Ev.appendTr r.1])

/-- The per-track loop of the `target == "youtube"` branch: a raised
`search_ytmusic` aborts the loop (and the transfer) at that track. -/
def youtubeLoop (ye : String → String → YtSearchEnv) :
    List (String × String) → Except Unit (List String × List String) × List Ev
  | [] => (.ok ([], []), [])
  | (t, a) :: rest =>
    match search_ytmusic (ye t a) t a with
    | .error e => (.error e, [Ev.search t a])
    | .ok vid =>
      let r := youtubeLoop ye rest
      match r.1 with
      | .error e => (.error e, Ev.search t a :: r.2)
      | .ok (vids, missing) =>
        (.ok (match vid with
          | some v => (v :: vids, missing)
          | none => (vids, (t ++ " - " ++ a) :: missing)),
          Ev.search t a :: r.2)

/-- Embeds `transfer_playlist`'s `target == "youtube"` branch: all tracks
are searched first, then `create_youtube_playlist` runs — and it
unconditionally raises `NotImplementedError`, so the branch always
fails after its searches. -/
def transfer_youtube (ye : String → String → YtSearchEnv)
    (tracks : List (String × String)) (playlistTitle : String) :
    Except Unit (String × List String) × List Ev :=
  match youtubeLoop ye tracks with
  | (.error e, evs) => (.error e, evs)
  | (.ok _, evs) => (.error (), evs ++ [Ev.createPl playlistTitle])

/-! ## Claims about search and transfer -/

/-- Every event the spotify per-track loop emits is a search call. -/
theorem spotifyLoop_events (se : String → String → SpSearchEnv) :
    ∀ (tracks : List (String × String)) (e : Ev),
    e ∈ (spotifyLoop se tracks).2.2 → ∃ t a, e = Ev.search t a := by
  intro tracks
  induction tracks with
  | nil => intro e h; simp [spotifyLoop] at h
  | cons p rest ih =>
    intro e h
    obtain ⟨t, a⟩ := p
    rcases hres : (search_spotify (se t a) t a).1 with - | u <;>
      rw [spotifyLoop, hres] at h <;>
      simp only [List.mem_cons] at h <;>
      rcases h with rfl | h <;>
      first
        | exact ⟨t, a, rfl⟩
        | exact ih e h

/-- C7 (confirmed).  When the structured exact query (title field +
artist field) returns at least one hit, `search_spotify` returns the
first hit's uri and invokes neither the AI tier nor the fuzzy tier. -/
theorem tier1_precedence (env : SpSearchEnv) (title artist : String)
    (r : SpCand) (rest : List SpCand) (h : env.q1 = .ok (r :: rest)) :
    search_spotify env title artist = (some r.uri, false, false) := by
  simp [search_spotify, h]

/-- Closed witness for `tier1_precedence`. -/
theorem tier1_precedence_witness :
    search_spotify
      ⟨.ok [⟨"Song", "Artist", "uri1"⟩], .ok [], fun _ _ => "Song Artist", fun _ _ => 1⟩
      "Song" "Artist" = (some "uri1", false, false) :=
  tier1_precedence _ "Song" "Artist" ⟨"Song", "Artist", "uri1"⟩ [] rfl

/-- C10 (confirmed).  When both structured queries return zero items,
the candidate list handed to the AI/fuzzy tiers is empty (it is built
from the second query's items), so whatever the oracle answers the final
scan finds nothing and the track is reported unresolved. -/
theorem empty_queries_unresolved (env : SpSearchEnv) (title artist : String)
    (h1 : env.q1 = .ok []) (h2 : env.q2 = .ok []) :
    (search_spotify env title artist).1 = none := by
  by_cases h : env.ai (title ++ " " ++ artist) [] = "NONE" <;>
    simp [search_spotify, h1, h2, h, getCloseMatches1]

/-- Closed witness for `empty_queries_unresolved`. -/
theorem empty_queries_unresolved_witness :
    (search_spotify ⟨.ok [], .ok [], fun _ _ => "Song Artist", fun _ _ => 1⟩
      "Song" "Artist").1 = none :=
  empty_queries_unresolved _ "Song" "Artist" rfl rfl

/-- C2 (corrected).  In the Spotify-destination branch the playlist is
created before any per-track search: the create event heads every trace,
and when creation fails the transfer fails having issued no search (the
trace is exactly the failed create).  The YouTube-destination branch,
however, searches every track first and only then calls
`create_youtube_playlist`, which unconditionally raises — so that branch
always fails, after its searches (see the counterexample). -/
theorem playlist_creation_order :
    (∀ (se : String → String → SpSearchEnv) (tracks : List (String × String))
        (title : String),
      transfer_spotify (.error ()) se tracks title = (.error (), [Ev.createPl title]))
    ∧ (∀ (createRes : Except Unit (String × String))
        (se : String → String → SpSearchEnv) (tracks : List (String × String))
        (title : String),
      ((transfer_spotify createRes se tracks title).2).head? = some (Ev.createPl title))
    ∧ (∀ (ye : String → String → YtSearchEnv) (tracks : List (String × String))
        (title : String),
      (transfer_youtube ye tracks title).1 = .error ()) := by
  refine ⟨fun se tracks title => rfl, ?_, ?_⟩
  · intro createRes se tracks title
    cases createRes <;> rfl
  · intro ye tracks title
    rw [transfer_youtube]
    rcases h : youtubeLoop ye tracks with ⟨res, evs⟩
    cases res <;> rfl

/-- Closed witness for `playlist_creation_order`. -/
theorem playlist_creation_order_witness :
    transfer_spotify (.error ()) (fun _ _ => ⟨.ok [], .ok [], fun _ _ => "NONE", fun _ _ => 0⟩)
        [("a", "b")] "P" = (.error (), [Ev.createPl "P"])
      ∧ (transfer_youtube (fun _ _ => ⟨.ok [], fun _ _ => "NONE", fun _ _ => 0⟩)
        [("a", "b")] "P").1 = .error () :=
  ⟨playlist_creation_order.1 _ [("a", "b")] "P",
    playlist_creation_order.2.2 _ [("a", "b")] "P"⟩

/-- C2 counterexample: a YouTube-destination transfer of one track.  The
destination playlist creation fails (`NotImplementedError`), yet — contra
the claim — a catalog search for the track was already issued: the trace
is the search followed by the failed create. -/
theorem creation_failure_after_search_counterexample :
    transfer_youtube (fun _ _ => ⟨.ok [], fun _ _ => "NONE", fun _ _ => 0⟩)
        [("a", "b")] "P"
      = (.error (), [Ev.search "a" "b", Ev.createPl "P"])
      ∧ Ev.search "a" "b" ∈ [Ev.search "a" "b", Ev.createPl "P"] := by
  constructor
  · rfl
  · decide

/-- C3 (corrected).  In the Spotify-destination branch no per-track
failure ever aborts the transfer: whatever every track's search
environment does (raised queries, arbitrary oracle output), once the
playlist was created the transfer returns `.ok` with the loop's missing
list.  In the YouTube-destination branch a raised `ytmusic.search` is NOT
absorbed — `search_ytmusic` has no `try/except` — and aborts the whole
transfer at that track. -/
theorem track_failure_absorption :
    (∀ (pl : String × String) (se : String → String → SpSearchEnv)
        (tracks : List (String × String)) (title : String),
      (transfer_spotify (.ok pl) se tracks title).1
        = .ok (pl.2, (spotifyLoop se tracks).2.1))
    ∧ (∀ (ye : String → String → YtSearchEnv) (t a title : String)
        (rest : List (String × String)),
      search_ytmusic (ye t a) t a = .error () →
      transfer_youtube ye ((t, a) :: rest) title = (.error (), [Ev.search t a])) := by
  refine ⟨fun pl se tracks title => rfl, ?_⟩
  intro ye t a title rest h
  rw [transfer_youtube, youtubeLoop, h]

/-- Closed witness for `track_failure_absorption`. -/
theorem track_failure_absorption_witness :
    (transfer_spotify (.ok ("pid", "purl"))
        (fun _ _ => ⟨.error (), .error (), fun _ _ => "NONE", fun _ _ => 0⟩)
        [("a", "b")] "P").1 = .ok ("purl", ["a - b"])
      ∧ transfer_youtube (fun _ _ => ⟨.error (), fun _ _ => "NONE", fun _ _ => 0⟩)
        [("a", "b")] "P" = (.error (), [Ev.search "a" "b"]) :=
  ⟨track_failure_absorption.1 ("pid", "purl") _ [("a", "b")] "P",
    track_failure_absorption.2 _ "a" "b" "P" [] rfl⟩

/-- C3 counterexample: a YouTube-destination transfer of two tracks where
the catalog search for the first track raises.  Contra the claim, the
failure is not absorbed into `missing`: the transfer aborts at once — the
trace shows only the first search, and the second track is never
processed. -/
theorem search_error_aborts_counterexample :
    transfer_youtube
        (fun t _ => if t = "a" then ⟨.error (), fun _ _ => "NONE", fun _ _ => 0⟩
          else ⟨.ok [], fun _ _ => "NONE", fun _ _ => 0⟩)
        [("a", "b"), ("c", "d")] "P"
      = (.error (), [Ev.search "a" "b"])
      ∧ Ev.search "c" "d" ∉ [Ev.search "a" "b"] := by
  constructor
  · rfl
  · decide

/-- C6 (confirmed).  Every track of a Spotify-destination transfer lands
in exactly one of the two output lists: resolved uri count plus missing
count equals the input length; the uris are the resolutions in source
order (`filterMap`), the missing entries are the unresolved tracks in
source order rendered `"title - artist"` (`filter` + `map`); and the ids
handed to the batched append call are exactly the resolved uris. -/
theorem transfer_partition (se : String → String → SpSearchEnv)
    (tracks : List (String × String)) :
    (spotifyLoop se tracks).1.length + (spotifyLoop se tracks).2.1.length
        = tracks.length
    ∧ (spotifyLoop se tracks).1
        = tracks.filterMap (fun p => (search_spotify (se p.1 p.2) p.1 p.2).1)
    ∧ (spotifyLoop se tracks).2.1
        = (tracks.filter fun p => ((search_spotify (se p.1 p.2) p.1 p.2).1).isNone).map
            (fun p => p.1 ++ " - " ++ p.2)
    ∧ ∀ (pl : String × String) (title : String) (ids : List String),
        Ev.appendTr ids ∈ (transfer_spotify (.ok pl) se tracks title).2
          → ids = (spotifyLoop se tracks).1 := by
  refine ⟨?_, ?_, ?_, ?_⟩
  · induction tracks with
    | nil => rfl
    | cons p rest ih =>
      obtain ⟨t, a⟩ := p
      rcases hres : (search_spotify (se t a) t a).1 with - | u <;>
        rw [spotifyLoop, hres] <;> simp <;> omega
  · induction tracks with
    | nil => rfl
    | cons p rest ih =>
      obtain ⟨t, a⟩ := p
      rcases hres : (search_spotify (se t a) t a).1 with - | u <;>
        rw [spotifyLoop, hres, List.filterMap_cons, hres] <;> simp [ih]
  · induction tracks with
    | nil => rfl
    | cons p rest ih =>
      obtain ⟨t, a⟩ := p
      rcases hres : (search_spotify (se t a) t a).1 with - | u <;>
        rw [spotifyLoop, hres, List.filter_cons] <;> simp [hres, ih]
  · intro pl title ids hmem
    rcases List.mem_cons.mp hmem with h | h
    · exact absurd h (by simp)
    · rcases List.mem_append.mp h with h' | h'
      · obtain ⟨t, a, ha⟩ := spotifyLoop_events se tracks _ h'
        exact absurd ha (by simp)
      · by_cases hempty : (spotifyLoop se tracks).1.isEmpty = true
        · simp only [if_pos hempty, List.not_mem_nil] at h'
        · simp only [if_neg hempty, List.mem_singleton, Ev.appendTr.injEq] at h'
          exact h'

/-- Closed witness for `transfer_partition`. -/
theorem transfer_partition_witness :
    ["u1"] = (spotifyLoop
      (fun _ _ => ⟨.ok [⟨"n", "ar", "u1"⟩], .ok [], fun _ _ => "NONE", fun _ _ => 0⟩)
      [("x", "y")]).1 :=
  (transfer_partition _ [("x", "y")]).2.2.2 ("pid", "purl") "T" ["u1"] (by decide)

/-! ## Title normalization (src/playlist_agent.py `clean_title`)

`clean_title` chains three `re.sub` passes and a `strip`.  The two
scanning passes are written with an explicit fuel argument (one unit per
examined position, so the input length always suffices); this keeps them
structurally recursive and hence evaluable by `decide`. -/

/-- Opening characters of the span regex `[\(\[].*?[\)\]]`. -/
def isOpener (c : Char) : Bool := decide (c = '(') || decide (c = '[')

/-- Closing characters of the span regex. -/
def isCloser (c : Char) : Bool := decide (c = ')') || decide (c = ']')

/-- Scan for the first closer, failing at a newline (the regex's `.`
does not match `'\n'`); returns the remainder after the closer. -/
def findCloser : List Char → Option (List Char)
  | [] => none
  | c :: rest =>
    if isCloser c then some rest
    else if c = '\n' then none
    else findCloser rest

/-- Embeds `re.sub(r"[\(\[].*?[\)\]]", "", title)`: at each position, an
opener with a closer somewhere before the next newline starts a match
(lazy `.*?` ends it at the first closer) and the span is dropped; an
opener with no reachable closer — or any other character — is kept. -/
def sub1F : Nat → List Char → List Char
  | _, [] => []
  | 0, l => l
  | fuel + 1, c :: rest =>
    if isOpener c then
      match findCloser rest with
      | some rest' => sub1F fuel rest'
      | none => c :: sub1F fuel rest
    else c :: sub1F fuel rest

/-- Bracket-span removal pass of `clean_title`. -/
def removeBrackets (l : List Char) : List Char := sub1F l.length l

/-- Case-insensitive match of one of the alternatives of
`(official video|music video|lyrics|audio)` at the head of `l` (the
four alternatives start with distinct letters, so the regex's
left-to-right alternative order never matters); returns the remainder
after the matched token. -/
def matchTok (l : List Char) : Option (List Char) :=
  let low := l.map Char.toLower
  if "official video".data.isPrefixOf low then some (l.drop 14)
  else if "music video".data.isPrefixOf low then some (l.drop 11)
  else if "lyrics".data.isPrefixOf low then some (l.drop 6)
  else if "audio".data.isPrefixOf low then some (l.drop 5)
  else none

/-- Embeds `re.sub(r"(official video|music video|lyrics|audio)", "",
title, flags=re.I)` (ASCII case folding). -/
def sub2F : Nat → List Char → List Char
  | _, [] => []
  | 0, l => l
  | fuel + 1, c :: rest =>
    match matchTok (c :: rest) with
    | some rem => sub2F fuel rem
    | none => c :: sub2F fuel rest

/-- Noise-token removal pass of `clean_title`. -/
def removeNoise (l : List Char) : List Char := sub2F l.length l

/-- Python's `\s` class (ASCII range, as used by the titles at hand). -/
def isWs (c : Char) : Bool :=
  decide (c = ' ') || decide (c = '\t') || decide (c = '\n')
    || decide (c = '\r') || decide (c = '\x0b') || decide (c = '\x0c')

/-- Embeds `re.sub(r"\s+", " ", title)`: every maximal whitespace run
becomes a single space. -/
def collapseWsF : Nat → List Char → List Char
  | _, [] => []
  | 0, l => l
  | fuel + 1, c :: rest =>
    if isWs c then ' ' :: collapseWsF fuel (rest.dropWhile isWs)
    else c :: collapseWsF fuel rest

/-- Whitespace-collapsing pass of `clean_title`. -/
def collapseWs (l : List Char) : List Char := collapseWsF l.length l

/-- Drop the trailing whitespace run. -/
def stripRight : List Char → List Char
  | [] => []
  | c :: rest =>
    match stripRight rest with
    | [] => if isWs c then [] else [c]
    | d :: r => c :: d :: r

/-- Embeds `title.strip()`. -/
def stripWs (l : List Char) : List Char := stripRight (l.dropWhile isWs)

/-- Embeds `clean_title`: bracket spans out, noise tokens out,
whitespace collapsed, ends trimmed. -/
def clean_title (s : String) : String :=
  String.mk (stripWs (collapseWs (removeNoise (removeBrackets s.data))))

/-- Whitespace characters of a list are all plain spaces. -/
def wsOnlySpace (l : List Char) : Bool :=
  l.all fun c => !(isWs c) || decide (c = ' ')

/-- No two adjacent whitespace characters. -/
def noAdjWs : List Char → Bool
  | c :: d :: rest => !(isWs c && isWs d) && noAdjWs (d :: rest)
  | _ => true

theorem collapseWsF_fuel (fuel₁ : Nat) : ∀ (fuel₂ : Nat) (l : List Char),
    l.length ≤ fuel₁ → l.length ≤ fuel₂ →
    collapseWsF fuel₁ l = collapseWsF fuel₂ l := by
  induction fuel₁ with
  | zero =>
    intro fuel₂ l h₁ _
    rw [List.length_eq_zero.mp (Nat.le_zero.mp h₁)]
    cases fuel₂ <;> rfl
  | succ fuel ih =>
    intro fuel₂ l h₁ h₂
    cases l with
    | nil => cases fuel₂ <;> rfl
    | cons c rest =>
      cases fuel₂ with
      | zero => simp at h₂
      | succ fuel₂ =>
        simp only [List.length_cons, Nat.succ_le_succ_iff] at h₁ h₂
        simp only [collapseWsF]
        by_cases hc : isWs c = true
        · rw [if_pos hc, if_pos hc,
            ih fuel₂ (rest.dropWhile isWs)
              (le_trans (List.dropWhile_suffix _).sublist.length_le h₁)
              (le_trans (List.dropWhile_suffix _).sublist.length_le h₂)]
        · rw [if_neg hc, if_neg hc, ih fuel₂ rest h₁ h₂]

theorem collapseWs_cons (c : Char) (rest : List Char) :
    collapseWs (c :: rest)
      = if isWs c then ' ' :: collapseWs (rest.dropWhile isWs)
        else c :: collapseWs rest := by
  show collapseWsF (rest.length + 1) (c :: rest) = _
  simp only [collapseWsF]
  by_cases hc : isWs c = true
  · rw [if_pos hc, if_pos hc, collapseWs,
      collapseWsF_fuel rest.length (rest.dropWhile isWs).length (rest.dropWhile isWs)
        (List.dropWhile_suffix _).sublist.length_le le_rfl]
  · rw [if_neg hc, if_neg hc]; rfl

theorem noAdjWs_tail (c : Char) (l : List Char) (h : noAdjWs (c :: l) = true) :
    noAdjWs l = true := by
  cases l with
  | nil => rfl
  | cons d r =>
    simp only [noAdjWs, Bool.and_eq_true] at h
    exact h.2

theorem noAdjWs_cons_of (c : Char) (l : List Char) (hl : noAdjWs l = true)
    (hh : ∀ d, l.head? = some d → (isWs c && isWs d) = false) :
    noAdjWs (c :: l) = true := by
  cases l with
  | nil => rfl
  | cons d r => simp [noAdjWs, hl, hh d rfl]

theorem dropWhile_head (p : Char → Bool) (l : List Char) :
    ∀ d, (l.dropWhile p).head? = some d → p d = false := by
  induction l with
  | nil => intro d h; simp [List.dropWhile] at h
  | cons c rest ih =>
    intro d h
    by_cases hc : p c = true
    · exact ih d (by simpa [List.dropWhile_cons, hc] using h)
    · rw [List.dropWhile_cons, if_neg (by simp [hc])] at h
      obtain rfl : c = d := Option.some.inj h
      simpa using hc

theorem dropWhile_eq_self (p : Char → Bool) (l : List Char)
    (h : ∀ d, l.head? = some d → p d = false) : l.dropWhile p = l := by
  cases l with
  | nil => rfl
  | cons c rest => rw [List.dropWhile_cons, if_neg (by simp [h c rfl])]

theorem collapseWsF_head (fuel : Nat) (c : Char) (rest : List Char)
    (h : isWs c = false) : (collapseWsF fuel (c :: rest)).head? = some c := by
  cases fuel <;> simp [collapseWsF, h]

theorem wsOnlySpace_collapseF (fuel : Nat) : ∀ l : List Char, l.length ≤ fuel →
    wsOnlySpace (collapseWsF fuel l) = true := by
  induction fuel with
  | zero =>
    intro l h
    rw [List.length_eq_zero.mp (Nat.le_zero.mp h)]
    rfl
  | succ fuel ih =>
    intro l h
    cases l with
    | nil => rfl
    | cons c rest =>
      simp only [List.length_cons, Nat.succ_le_succ_iff] at h
      simp only [collapseWsF]
      by_cases hc : isWs c = true
      · rw [if_pos hc]
        simp only [wsOnlySpace, List.all_cons, Bool.and_eq_true]
        exact ⟨by simp,
          ih (rest.dropWhile isWs) (le_trans (List.dropWhile_suffix _).sublist.length_le h)⟩
      · rw [if_neg hc]
        simp only [wsOnlySpace, List.all_cons, Bool.and_eq_true]
        exact ⟨by simp [hc], ih rest h⟩

theorem noAdjWs_collapseF (fuel : Nat) : ∀ l : List Char, l.length ≤ fuel →
    noAdjWs (collapseWsF fuel l) = true := by
  induction fuel with
  | zero =>
    intro l h
    rw [List.length_eq_zero.mp (Nat.le_zero.mp h)]
    rfl
  | succ fuel ih =>
    intro l h
    cases l with
    | nil => rfl
    | cons c rest =>
      simp only [List.length_cons, Nat.succ_le_succ_iff] at h
      simp only [collapseWsF]
      by_cases hc : isWs c = true
      · rw [if_pos hc]
        apply noAdjWs_cons_of
        · exact ih (rest.dropWhile isWs) (le_trans (List.dropWhile_suffix _).sublist.length_le h)
        · intro d hd
          cases hdw : rest.dropWhile isWs with
          | nil => rw [hdw] at hd; cases fuel <;> simp [collapseWsF] at hd
          | cons e r =>
            have he : isWs e = false := dropWhile_head isWs rest e (by rw [hdw]; rfl)
            rw [hdw, collapseWsF_head fuel e r he] at hd
            obtain rfl : e = d := Option.some.inj hd
            simp [he]
      · rw [if_neg hc]
        apply noAdjWs_cons_of
        · exact ih rest h
        · intro d _
          simp [hc]

theorem collapseWsF_id (fuel : Nat) : ∀ l : List Char, l.length ≤ fuel →
    wsOnlySpace l = true → noAdjWs l = true → collapseWsF fuel l = l := by
  induction fuel with
  | zero =>
    intro l h _ _
    rw [List.length_eq_zero.mp (Nat.le_zero.mp h)]
    rfl
  | succ fuel ih =>
    intro l h hws hadj
    cases l with
    | nil => rfl
    | cons c rest =>
      simp only [List.length_cons, Nat.succ_le_succ_iff] at h
      have hws2 := hws
      simp only [wsOnlySpace, List.all_cons, Bool.and_eq_true] at hws2
      have hws' : wsOnlySpace rest = true := hws2.2
      have hadj' : noAdjWs rest = true := noAdjWs_tail c rest hadj
      simp only [collapseWsF]
      by_cases hc : isWs c = true
      · have hcsp : c = ' ' := by
          have h1 := hws2.1
          simp [hc] at h1
          exact h1
        have hdw : rest.dropWhile isWs = rest := by
          apply dropWhile_eq_self
          intro d hd
          cases rest with
          | nil => simp at hd
          | cons e r =>
            obtain rfl : e = d := Option.some.inj hd
            have h2 := hadj
            simp only [noAdjWs, Bool.and_eq_true] at h2
            have h3 := h2.1
            simp [hc] at h3
            simp [h3]
        rw [if_pos hc, hdw, ih rest h hws' hadj', hcsp]
      · rw [if_neg hc, ih rest h hws' hadj']

theorem all_of_sublist (f : Char → Bool) {l₁ l₂ : List Char}
    (h : List.Sublist l₁ l₂) (hall : l₂.all f = true) : l₁.all f = true := by
  simp only [List.all_eq_true] at hall ⊢
  exact fun x hx => hall x (h.subset hx)

theorem stripRight_sublist (l : List Char) : List.Sublist (stripRight l) l := by
  induction l with
  | nil => exact List.Sublist.refl []
  | cons c rest ih =>
    simp only [stripRight]
    cases h : stripRight rest with
    | nil =>
      by_cases hw : isWs c = true
      · rw [if_pos hw]; exact List.nil_sublist _
      · rw [if_neg hw]; exact (List.nil_sublist rest).cons₂ c
    | cons d r => exact (h ▸ ih).cons₂ c

theorem noAdjWs_dropWhile (l : List Char) (h : noAdjWs l = true) :
    noAdjWs (l.dropWhile isWs) = true := by
  induction l with
  | nil => rfl
  | cons c rest ih =>
    rw [List.dropWhile_cons]
    by_cases hc : isWs c = true
    · rw [if_pos (by simp [hc])]
      exact ih (noAdjWs_tail c rest h)
    · rw [if_neg (by simp [hc])]
      exact h

theorem stripRight_head (c : Char) (rest : List Char) :
    (stripRight (c :: rest)).head? = some c ∨ stripRight (c :: rest) = [] := by
  simp only [stripRight]
  cases stripRight rest with
  | nil =>
    by_cases hw : isWs c = true
    · rw [if_pos hw]; right; rfl
    · rw [if_neg hw]; left; rfl
  | cons d r => left; rfl

theorem noAdjWs_stripRight (l : List Char) (h : noAdjWs l = true) :
    noAdjWs (stripRight l) = true := by
  induction l with
  | nil => rfl
  | cons c rest ih =>
    simp only [stripRight]
    cases hsr : stripRight rest with
    | nil =>
      by_cases hw : isWs c = true
      · rw [if_pos hw]; rfl
      · rw [if_neg hw]; rfl
    | cons d r =>
      have h1 : noAdjWs (d :: r) = true := hsr ▸ ih (noAdjWs_tail c rest h)
      cases rest with
      | nil => simp [stripRight] at hsr
      | cons e rest' =>
        rcases stripRight_head e rest' with hh | hh
        · rw [hsr] at hh
          obtain rfl : d = e := Option.some.inj hh
          have h2 := h
          simp only [noAdjWs, Bool.and_eq_true] at h2
          have h3 : (isWs c && isWs d) = false := by
            have h4 := h2.1
            rwa [Bool.not_eq_true'] at h4
          simp [noAdjWs, h1, h3]
        · rw [hsr] at hh
          exact absurd hh (by simp)

theorem stripRight_idem (l : List Char) :
    stripRight (stripRight l) = stripRight l := by
  induction l with
  | nil => rfl
  | cons c rest ih =>
    cases hsr : stripRight rest with
    | nil =>
      have h1 : stripRight (c :: rest)
          = if isWs c = true then [] else [c] := by
        conv_lhs => rw [stripRight, hsr]
      rw [h1]
      by_cases hw : isWs c = true
      · rw [if_pos hw]; rfl
      · rw [if_neg hw]; simp [stripRight, hw]
    | cons d r =>
      have hdr : stripRight (d :: r) = d :: r := by
        rw [hsr] at ih; exact ih
      have h1 : stripRight (c :: rest) = c :: d :: r := by
        conv_lhs => rw [stripRight, hsr]
      rw [h1]
      conv_lhs => rw [stripRight, hdr]

theorem stripWs_head (l : List Char) :
    ∀ d, (stripWs l).head? = some d → isWs d = false := by
  intro d hd
  unfold stripWs at hd
  cases hdw : l.dropWhile isWs with
  | nil => rw [hdw] at hd; simp [stripRight] at hd
  | cons e r =>
    have he : isWs e = false := dropWhile_head isWs l e (by rw [hdw]; rfl)
    rw [hdw] at hd
    rcases stripRight_head e r with hh | hh
    · rw [hh] at hd
      obtain rfl : e = d := Option.some.inj hd
      exact he
    · rw [hh] at hd
      simp at hd

theorem stripWs_idem (l : List Char) : stripWs (stripWs l) = stripWs l := by
  conv_lhs => rw [stripWs]
  rw [dropWhile_eq_self isWs (stripWs l) (stripWs_head l)]
  show stripRight (stripRight (l.dropWhile isWs)) = _
  rw [stripRight_idem]
  rfl

theorem wsOnlySpace_collapseWs (l : List Char) :
    wsOnlySpace (collapseWs l) = true :=
  wsOnlySpace_collapseF l.length l le_rfl

theorem noAdjWs_collapseWs (l : List Char) :
    noAdjWs (collapseWs l) = true :=
  noAdjWs_collapseF l.length l le_rfl

theorem stripWs_sublist (l : List Char) : List.Sublist (stripWs l) l :=
  (stripRight_sublist _).trans (List.dropWhile_suffix _).sublist

theorem noAdjWs_stripWs (l : List Char) (h : noAdjWs l = true) :
    noAdjWs (stripWs l) = true :=
  noAdjWs_stripRight _ (noAdjWs_dropWhile l h)

theorem stripCollapse_stable (m : List Char) :
    stripWs (collapseWs (stripWs (collapseWs m))) = stripWs (collapseWs m) := by
  have hws : wsOnlySpace (stripWs (collapseWs m)) = true :=
    all_of_sublist _ (stripWs_sublist _) (wsOnlySpace_collapseWs m)
  have hadj : noAdjWs (stripWs (collapseWs m)) = true :=
    noAdjWs_stripWs _ (noAdjWs_collapseWs m)
  have hid : collapseWs (stripWs (collapseWs m)) = stripWs (collapseWs m) :=
    collapseWsF_id _ _ le_rfl hws hadj
  rw [hid, stripWs_idem]

/-- C5 (corrected).  The normalizer is not idempotent in general (see the
counterexample: token removal can splice a fresh noise token together).
Idempotence does hold for every input whose normalized form is itself
invariant under the bracket-span pass and the noise-token pass — in
particular for all ordinary titles. -/
theorem clean_title_conditional_idem (x : String)
    (h1 : removeBrackets (clean_title x).data = (clean_title x).data)
    (h2 : removeNoise (clean_title x).data = (clean_title x).data) :
    clean_title (clean_title x) = clean_title x := by
  have hdata : (clean_title x).data
      = stripWs (collapseWs (removeNoise (removeBrackets x.data))) := rfl
  calc clean_title (clean_title x)
      = String.mk (stripWs (collapseWs
          (removeNoise (removeBrackets (clean_title x).data)))) := rfl
    _ = String.mk (stripWs (collapseWs (clean_title x).data)) := by rw [h1, h2]
    _ = String.mk (stripWs (collapseWs (stripWs (collapseWs
          (removeNoise (removeBrackets x.data)))))) := by rw [hdata]
    _ = String.mk (stripWs (collapseWs
          (removeNoise (removeBrackets x.data)))) := by rw [stripCollapse_stable]
    _ = clean_title x := rfl

/-- Closed witness for `clean_title_conditional_idem`. -/
theorem clean_title_conditional_idem_witness :
    clean_title (clean_title "Song A (Live)") = clean_title "Song A (Live)" :=
  clean_title_conditional_idem "Song A (Live)" (by decide) (by decide)

/-- C5 counterexample: `clean_title "lyrlyricsics"` removes the inner
`lyrics` occurrence, splicing the remaining halves into a fresh `lyrics`;
a second application removes that too, so the normalizer is not
idempotent. -/
theorem clean_title_not_idempotent :
    clean_title "lyrlyricsics" = "lyrics"
      ∧ clean_title (clean_title "lyrlyricsics") = ""
      ∧ clean_title (clean_title "lyrlyricsics") ≠ clean_title "lyrlyricsics" :=
  ⟨by decide, by decide, by decide⟩

end PlayTheList
